import Mathlib

/-!
# Verification of the go-pg/migrations execution engine

Shallow embedding of the migration engine of go-pg/migrations
(`collection.go`).  Machine integers (`int64`) are modelled as `Int`;
versions registered by the library always fit in an `int64`, which is made
explicit as a hypothesis where the code uses `math.MaxInt64` as a sentinel.

The database is modelled by the version-ledger table alone: an append-only
list of `Int` rows in insertion order (`id` ascending).  A migration's
`Up`/`Down` database action is opaque to the engine except for whether it
succeeds, so an action is modelled by its outcome (`upOk : Bool`, and
`down : Option Bool` since `Down` may be `nil`).  Every database round trip
the engine performs is recorded in an event trace.
-/

namespace GoPgMigrations

/-- One migration (`Migration` in `collection.go`): a version, the
transactional flags, and the two actions.  `Up` is modelled by whether it
succeeds; `Down` may be absent (`nil` in Go), hence an `Option`. -/
structure Migration where
  version : Int
  upTx : Bool
  upOk : Bool
  downTx : Bool
  down : Option Bool
deriving DecidableEq, Repr

/-- Observable database interactions of one `Run` invocation. -/
inductive Event where
  | beganTx : Event
  | ranUp : Int → Bool → Event
  | ranDown : Int → Bool → Event
  | appended : Int → Event
  | committed : Event
  | rolledBack : Event
deriving DecidableEq, Repr

/-- Errors surfaced by the engine. -/
inductive Err where
  | duplicateVersion : Int → Err
  | upActionFailed : Int → Err
  | downActionFailed : Int → Err
  | badTarget : List Char → Err
  | missingVersionArg : Err
  | badVersionArg : List Char → Err
  | unsupportedCommand : List Char → Err
deriving DecidableEq, Repr

/-! ## The SQL directive scanner (`newSQLMigration`)

The returned closure scans the migration file line by line (via
`bufio.Scanner`); the model takes the file's text already split into
lines, each line a `List Char` (the scanner's byte slices). -/

/-- `bytes.HasPrefix`. -/
def hasPrefix : List Char → List Char → Bool
  | [], _ => true
  | _ :: _, [] => false
  | p :: ps, c :: cs => p = c && hasPrefix ps cs

/-- The reserved directive marker `--gopg:` (`const prefix` in
`newSQLMigration`). -/
def gopgMarker : List Char := ['-', '-', 'g', 'o', 'p', 'g', ':']

/-- The only recognized directive, `split`. -/
def splitWord : List Char := ['s', 'p', 'l', 'i', 't']

/-- The scanning loop of `newSQLMigration`: `query` is the accumulated
statement buffer, `queries` the finished statements.  A directive line is
recognized by the `--gopg:` marker; `split` closes the current buffer; any
other directive is an error carrying the unrecognized directive text
(`"unknown gopg directive: %q"`).  After the loop a non-empty buffer is
appended as the final statement. -/
def scanQueries : List (List Char) → List Char → List (List Char) →
    Except (List Char) (List (List Char))
  | [], query, queries =>
    .ok (if query.isEmpty then queries else queries ++ [query])
  | b :: rest, query, queries =>
    if hasPrefix gopgMarker b then
      let b' := b.drop gopgMarker.length
      if b' = splitWord then
        scanQueries rest [] (queries ++ [query])
      else
        .error b'
    else
      scanQueries rest (query ++ b ++ ['\n']) queries

/-- Statement list produced for a migration file's lines. -/
def sqlStatements (lines : List (List Char)) :
    Except (List Char) (List (List Char)) :=
  scanQueries lines [] []

/-- Modelled from the spec's words (claim C8), for comparison with
`scanQueries`: a line *equal to* `--gopg:split` closes the current
statement; any *other* line beginning with the `--gopg:` prefix is an
unknown-directive error; every other line is appended verbatim followed by
a newline; a trailing non-empty buffer becomes the final statement. -/
def claimScanQueries : List (List Char) → List Char → List (List Char) →
    Except (List Char) (List (List Char))
  | [], buf, acc =>
    .ok (if buf.isEmpty then acc else acc ++ [buf])
  | l :: rest, buf, acc =>
    if l = gopgMarker ++ splitWord then
      claimScanQueries rest [] (acc ++ [buf])
    else if hasPrefix gopgMarker l then
      .error (l.drop gopgMarker.length)
    else
      claimScanQueries rest (buf ++ l ++ ['\n']) acc

/-- Statement list as the claim describes it. -/
def claimStatements (lines : List (List Char)) :
    Except (List Char) (List (List Char)) :=
  claimScanQueries lines [] []

/-! ## Registry operations -/

/-- `Collection.addMigration`: sorted insert before the first strictly
greater version (equal versions keep the existing record first). -/
def addMigration : List Migration → Migration → List Migration
  | [], m => [m]
  | mm :: rest, m =>
    if m.version < mm.version then m :: mm :: rest
    else mm :: addMigration rest m

/-- The loop body of `validateMigrations`: `seen` is the set of versions
already visited; the first version seen twice is reported. -/
def validateFrom : List Int → List Migration → Option Int
  | _, [] => none
  | seen, m :: rest =>
    if m.version ∈ seen then some m.version
    else validateFrom (m.version :: seen) rest

/-- `validateMigrations`: `some v` when two records share version `v`
(the error `"multiple migrations with version=%d"`). -/
def validateMigrations (ms : List Migration) : Option Int :=
  validateFrom [] ms

/-! ## Version ledger -/

/-- `Collection.Version`: `SELECT version FROM ? ORDER BY id DESC LIMIT 1`,
`0` when no rows exist (`pg.ErrNoRows`). -/
def currentVersion (ledger : List Int) : Int :=
  (ledger.getLast?).getD 0

/-! ## The command state machine (`Collection.Run`) -/

/-- In-flight state of one `Run` invocation: committed ledger rows, event
trace, whether a transaction is open (`tx != nil`), rows inserted by
`SetVersion` on the open transaction but not yet committed, the version
read at the most recent `begin`, and the running `newVersion` result. -/
structure RunState where
  ledger : List Int
  events : List Event
  txOpen : Bool
  pending : List Int
  version : Int
  newVersion : Int
deriving DecidableEq, Repr

/-- `Collection.begin`: open a transaction and read the current version.
(The idle-timeout and `LOCK TABLE` fallbacks of `begin` touch no ledger
state and always succeed against PostgreSQL; they are absorbed here.) -/
def beginTx (st : RunState) : RunState :=
  { st with txOpen := true, pending := [],
            version := currentVersion st.ledger,
            events := st.events ++ [Event.beganTx] }

/-- `tx.Commit()`: pending rows become durable. -/
def commitClose (st : RunState) : RunState :=
  { st with ledger := st.ledger ++ st.pending, pending := [],
            txOpen := false,
            events := st.events ++ [Event.committed] }

/-- The `case "up"` loop of `Collection.Run`: for each migration, stop when
its version exceeds the target, begin a transaction when none is open, skip
versions already applied, otherwise run the up action (`runUp`, on the
transaction iff `UpTx`), append the new version (`SetVersion`) and commit.
On a failing up action the error propagates with `newVersion = 0`
(`c.run` returns `(0, err)`). -/
def upLoop : List Migration → Int → RunState → RunState × Option Err
  | [], _, st => (st, none)
  | m :: rest, target, st =>
    if target < m.version then (st, none)
    else
      let st1 := if st.txOpen then st else beginTx st
      if m.version ≤ st1.version then upLoop rest target st1
      else
        let st2 := { st1 with events := st1.events ++ [Event.ranUp m.version m.upTx] }
        if m.upOk then
          let st3 := { st2 with pending := st2.pending ++ [m.version],
                                events := st2.events ++ [Event.appended m.version],
                                newVersion := m.version }
          upLoop rest target (commitClose st3)
        else
          ({ st2 with newVersion := 0 }, some (.upActionFailed m.version))

/-- The search loop of `Collection.down`: walking the registry from the
end, the first (hence rightmost) record with version at most `v`. -/
def downPick (ms : List Migration) (v : Int) : Option Migration :=
  ms.reverse.find? (fun m => decide (m.version ≤ v))

/-- `Collection.down` followed by `runDown` inside the open transaction:
at version `0` nothing happens; with no record of version at most `oldV`
the version is returned unchanged; otherwise the picked record's down
action runs when present (`Down != nil`, on the transaction iff `DownTx`)
and `version - 1` of the picked record is appended.  Returns the new
version, `0` with an error when the action fails. -/
def downOnce (ms : List Migration) (st : RunState) (oldV : Int) :
    RunState × Int × Option Err :=
  if oldV = 0 then (st, 0, none)
  else
    match downPick ms oldV with
    | none => (st, oldV, none)
    | some m =>
      match m.down with
      | none =>
        ({ st with pending := st.pending ++ [m.version - 1],
                   events := st.events ++ [Event.appended (m.version - 1)] },
         m.version - 1, none)
      | some ok =>
        let st1 := { st with events := st.events ++ [Event.ranDown m.version m.downTx] }
        if ok then
          ({ st1 with pending := st1.pending ++ [m.version - 1],
                      events := st1.events ++ [Event.appended (m.version - 1)] },
           m.version - 1, none)
        else (st1, 0, some (.downActionFailed m.version))

/-- The `case "reset"` loop: begin a transaction when none is open
(re-reading the version), perform one `down` step, commit, and stop once
the version no longer changes.  The Go loop is unbounded; it is embedded
with fuel `ms.length + 1`, proved sufficient below (each continuing
iteration strictly shrinks the set of records at or below the current
version). -/
def resetLoop (ms : List Migration) : Nat → RunState → Int →
    RunState × Int × Option Err
  | 0, st, version => (st, version, none)
  | fuel + 1, st, version =>
    let p : RunState × Int :=
      if st.txOpen then (st, version)
      else (beginTx st, currentVersion st.ledger)
    match downOnce ms p.1 p.2 with
    | (st1, _, some e) => (st1, 0, some e)
    | (st1, nv, none) =>
      let st2 := commitClose st1
      if nv = p.2 then (st2, nv, none)
      else resetLoop ms fuel st2 nv

/-- `strconv.ParseInt(s, 10, 64)` digit loop. -/
def parseDigits : List Char → Nat → Option Nat
  | [], acc => some acc
  | c :: rest, acc =>
    if '0' ≤ c ∧ c ≤ '9' then
      parseDigits rest (acc * 10 + (c.toNat - '0'.toNat))
    else none

/-- `math.MaxInt64`, the default `up` target. -/
def goMaxInt64 : Int := 2 ^ 63 - 1

/-- `strconv.ParseInt(s, 10, 64)`: optional sign, at least one decimal
digit, value within the signed 64-bit range (out of range is an error). -/
def parseInt (s : String) : Option Int :=
  match s.data with
  | [] => none
  | c :: rest =>
    let neg : Bool := c = '-'
    let ds : List Char := if c = '-' ∨ c = '+' then rest else c :: rest
    if ds.isEmpty then none
    else
      match parseDigits ds 0 with
      | none => none
      | some n =>
        let i : Int := if neg then -(n : Int) else (n : Int)
        if -(2 ^ 63) ≤ i ∧ i ≤ goMaxInt64 then some i else none

/-- Result of `Collection.Run`: the returned `(oldVersion, newVersion,
err)` triple together with the final ledger contents and the event trace
of the invocation. -/
structure RunResult where
  oldVersion : Int
  newVersion : Int
  error : Option Err
  ledger : List Int
  events : List Event
deriving DecidableEq, Repr

/-- Shared exit of `Run`: on an error the deferred rollback discards
pending rows; on success a still-open transaction is committed. -/
def finishRun (oldV : Int) (st : RunState) (e : Option Err) : RunResult :=
  match e with
  | some err =>
    ⟨oldV, st.newVersion, some err, st.ledger,
     st.events ++ (if st.txOpen then [Event.rolledBack] else [])⟩
  | none =>
    let st1 := if st.txOpen then commitClose st else st
    ⟨oldV, st1.newVersion, none, st1.ledger, st1.events⟩

/-- `Collection.Run`.  `migs` is the sorted snapshot `c.Migrations()`;
`ledger` the committed rows of the version table (assumed to exist: the
`tableExists` guard passes); `args` the command arguments.  `init` and
`create` only touch external state (DDL, a template file) and return
zero versions before the ledger is read. -/
def run (migs : List Migration) (ledger : List Int) (args : List String) :
    RunResult :=
  match validateMigrations migs with
  | some d => ⟨0, 0, some (.duplicateVersion d), ledger, []⟩
  | none =>
    let cmd : String := match args with
      | [] => "up"
      | c :: _ => c
    if cmd = "init" then ⟨0, 0, none, ledger, []⟩
    else if cmd = "create" then ⟨0, 0, none, ledger, []⟩
    else
      let v := currentVersion ledger
      let st : RunState := ⟨ledger, [Event.beganTx], true, [], v, v⟩
      if cmd = "version" then
        finishRun v st none
      else if cmd = "up" then
        match args with
        | _ :: ts :: _ =>
          match parseInt ts with
          | none => ⟨v, v, some (.badTarget ts.data), ledger,
                     st.events ++ [Event.rolledBack]⟩
          | some target =>
            if v > target then finishRun v st none
            else
              let r := upLoop migs target st
              finishRun v r.1 r.2
        | _ =>
          let r := upLoop migs goMaxInt64 st
          finishRun v r.1 r.2
      else if cmd = "down" then
        match downOnce migs st v with
        | (st1, _, some e) =>
          ⟨v, 0, some e, st1.ledger, st1.events ++ [Event.rolledBack]⟩
        | (st1, nv, none) =>
          finishRun v { st1 with newVersion := nv } none
      else if cmd = "reset" then
        match resetLoop migs (migs.length + 1) st v with
        | (st1, _, some e) =>
          ⟨v, 0, some e, st1.ledger, st1.events ++ [Event.rolledBack]⟩
        | (st1, nv, none) => ⟨v, nv, none, st1.ledger, st1.events⟩
      else if cmd = "set_version" then
        match args with
        | _ :: ns :: _ =>
          match parseInt ns with
          | none => ⟨v, 0, some (.badVersionArg ns.data), ledger,
                     st.events ++ [Event.rolledBack]⟩
          | some n =>
            let st1 := { st with pending := st.pending ++ [n],
                                 events := st.events ++ [Event.appended n],
                                 newVersion := n }
            finishRun v st1 none
        | _ => ⟨v, v, some .missingVersionArg, ledger,
                st.events ++ [Event.rolledBack]⟩
      else ⟨v, v, some (.unsupportedCommand cmd.data), ledger,
            st.events ++ [Event.rolledBack]⟩

/-- The pure version transition of one `down` step (what `Collection.down`
returns when no action fails). -/
def downStep (ms : List Migration) (v : Int) : Int :=
  if v = 0 then 0
  else
    match downPick ms v with
    | none => v
    | some m => m.version - 1

/-- The events of one applied `up` migration: begin, run the action,
append the version, commit. -/
def upBlock (m : Migration) : List Event :=
  [Event.beganTx, .ranUp m.version m.upTx, .appended m.version, .committed]

/-- Versions whose up action was run, in trace order. -/
def ranUpVersions (evs : List Event) : List Int :=
  evs.filterMap fun e => match e with
    | .ranUp v _ => some v
    | _ => none

end GoPgMigrations

namespace GoPgMigrations

/-! ## Basic lemmas -/

/-- `hasPrefix` recognises exactly the lists extending `p`. -/
theorem hasPrefix_iff : ∀ (p l : List Char), hasPrefix p l = true ↔ ∃ t, l = p ++ t
  | [], l => ⟨fun _ => ⟨l, rfl⟩, fun _ => rfl⟩
  | _ :: _, [] => by simp [hasPrefix]
  | a :: ps, c :: cs => by
    simp only [hasPrefix, Bool.and_eq_true, decide_eq_true_eq, hasPrefix_iff ps cs,
      List.cons_append, List.cons.injEq]
    aesop

/-- The scanning loop of `newSQLMigration` agrees with the claim's line-by-line
description for every buffer and accumulator. -/
theorem scanQueries_eq_claim :
    ∀ (lines : List (List Char)) (q : List Char) (qs : List (List Char)),
      scanQueries lines q qs = claimScanQueries lines q qs := by
  intro lines
  induction lines with
  | nil => intro q qs; rfl
  | cons b rest ih =>
    intro q qs
    by_cases hp : hasPrefix gopgMarker b = true
    · obtain ⟨t, rfl⟩ := (hasPrefix_iff _ _).mp hp
      by_cases hs : t = splitWord
      · subst hs
        simp [scanQueries, claimScanQueries, hp, List.drop_left, ih]
      · have hne : gopgMarker ++ t ≠ gopgMarker ++ splitWord := by
          intro h
          exact hs (List.append_cancel_left h)
        simp [scanQueries, claimScanQueries, hp, hne, List.drop_left, hs]
    · have hne : b ≠ gopgMarker ++ splitWord := by
        rintro rfl
        exact hp ((hasPrefix_iff _ _).mpr ⟨splitWord, rfl⟩)
      simp [scanQueries, claimScanQueries, hp, hne, ih]

/-- C8: the SQL directive parser, applied to the text of a migration file,
scans line by line: a line equal to `--gopg:split` closes the current
accumulated statement and starts a new one; any other line beginning with
the `--gopg:` prefix fails with an unknown-directive error; every other
line (including blank lines) is appended verbatim to the current statement
buffer followed by a newline; a trailing non-empty buffer becomes the
final statement. -/
theorem sql_directive_scanner_spec (lines : List (List Char)) :
    sqlStatements lines = claimStatements lines :=
  scanQueries_eq_claim lines [] []

/-- C10: `Run` with an empty argument list behaves identically to `Run`
with the single argument `"up"`: the command defaults to `up`. -/
theorem run_default_command_up (ms : List Migration) (L : List Int) :
    run ms L [] = run ms L ["up"] := rfl

end GoPgMigrations

namespace GoPgMigrations

/-- Appending a row makes it the current version. -/
theorem currentVersion_append (L : List Int) (v : Int) :
    currentVersion (L ++ [v]) = v := by
  simp [currentVersion]

/-- When the target is at most the version read at `begin`, the `up` loop
runs nothing: every migration is either beyond the target or already
applied. -/
theorem upLoop_skip_all (target : Int) :
    ∀ (ms : List Migration) (st : RunState),
      st.txOpen = true → target ≤ st.version →
      upLoop ms target st = (st, none) := by
  intro ms
  induction ms with
  | nil => intro st _ _; rfl
  | cons m rest ih =>
    intro st hopen hle
    by_cases hbr : target < m.version
    · simp [upLoop, hbr]
    · have hm : m.version ≤ st.version := le_trans (not_lt.mp hbr) hle
      simp [upLoop, hbr, hopen, hm, ih st hopen hle]

/-- C5: with a numeric target below the current version, `up` is a no-op
returning `(v, v)` with no error, running no action and appending nothing;
likewise `up 0` from version 0. -/
theorem up_target_below_current_noop (ms : List Migration) (L : List Int)
    (s : String) (t : Int)
    (hval : validateMigrations ms = none)
    (hparse : parseInt s = some t)
    (ht : t < currentVersion L ∨ (t = 0 ∧ currentVersion L = 0)) :
    run ms L ["up", s] =
      ⟨currentVersion L, currentVersion L, none, L,
       [Event.beganTx, Event.committed]⟩ := by
  rcases ht with ht | ⟨rfl, hv0⟩
  · simp [run, hval, hparse, finishRun, commitClose, ht]
  · simp [run, hval, hparse, hv0, finishRun, commitClose,
      upLoop_skip_all 0 ms ⟨L, [Event.beganTx], true, [], 0, 0⟩ rfl le_rfl]

end GoPgMigrations

namespace GoPgMigrations

/-- C7: `set_version <n>` unconditionally appends `n` to the ledger without
running any action and returns `(old, n)`, for every registry (no record
with version `n` need exist); a subsequent `version` run returns `(n, n)`;
a missing or non-numeric argument fails before appending anything. -/
theorem set_version_appends_unconditionally (ms : List Migration)
    (L : List Int) (s : String) (n : Int)
    (hval : validateMigrations ms = none) :
    (parseInt s = some n →
      run ms L ["set_version", s] =
        ⟨currentVersion L, n, none, L ++ [n],
         [Event.beganTx, Event.appended n, Event.committed]⟩) ∧
    (run ms (L ++ [n]) ["version"] =
      ⟨n, n, none, L ++ [n], [Event.beganTx, Event.committed]⟩) ∧
    (run ms L ["set_version"] =
      ⟨currentVersion L, currentVersion L, some .missingVersionArg, L,
       [Event.beganTx, Event.rolledBack]⟩) ∧
    (parseInt s = none →
      run ms L ["set_version", s] =
        ⟨currentVersion L, 0, some (.badVersionArg s.data), L,
         [Event.beganTx, Event.rolledBack]⟩) := by
  refine ⟨fun hp => ?_, ?_, ?_, fun hp => ?_⟩
  · simp [run, hval, hp, finishRun, commitClose]
  · simp [run, hval, finishRun, commitClose, currentVersion_append]
  · simp [run, hval]
  · simp [run, hval, hp]

end GoPgMigrations

namespace GoPgMigrations

/-- A successful `validateFrom` means the versions are distinct and avoid
the seen set. -/
theorem nodup_of_validateFrom_none :
    ∀ (ms : List Migration) (seen : List Int),
      validateFrom seen ms = none →
      (ms.map Migration.version).Nodup ∧ ∀ m ∈ ms, m.version ∉ seen := by
  intro ms
  induction ms with
  | nil => intro seen _; simp
  | cons m rest ih =>
    intro seen h
    rw [validateFrom] at h
    by_cases hm : m.version ∈ seen
    · simp [hm] at h
    · rw [if_neg hm] at h
      obtain ⟨hnd, hseen⟩ := ih _ h
      refine ⟨?_, ?_⟩
      · refine List.nodup_cons.mpr ⟨?_, hnd⟩
        intro hmem
        obtain ⟨x, hx, hxv⟩ := List.mem_map.mp hmem
        exact absurd (List.mem_cons_self _ _) (hxv ▸ hseen x hx ∘ fun h => h)
      · intro x hx
        rcases List.mem_cons.mp hx with rfl | hx'
        · exact hm
        · exact fun hc => hseen x hx' (List.mem_cons_of_mem _ hc)

/-- Distinct versions pass validation. -/
theorem validateFrom_none_of_nodup :
    ∀ (ms : List Migration) (seen : List Int),
      (ms.map Migration.version).Nodup → (∀ m ∈ ms, m.version ∉ seen) →
      validateFrom seen ms = none := by
  intro ms
  induction ms with
  | nil => intro seen _ _; rfl
  | cons m rest ih =>
    intro seen hnd hseen
    obtain ⟨hm, hnd'⟩ := List.nodup_cons.mp hnd
    rw [validateFrom, if_neg (hseen m (List.mem_cons_self _ _))]
    refine ih _ hnd' ?_
    intro x hx hc
    rcases List.mem_cons.mp hc with hv | hv
    · exact hm (hv ▸ List.mem_map_of_mem Migration.version hx)
    · exact hseen x (List.mem_cons_of_mem _ hx) hv

/-- A registry sorted strictly by version passes validation. -/
theorem validate_none_of_sorted (ms : List Migration)
    (h : List.Pairwise (fun a b => a.version < b.version) ms) :
    validateMigrations ms = none := by
  refine validateFrom_none_of_nodup ms [] ?_ (by simp)
  have hlt : List.Pairwise (· < ·) (ms.map Migration.version) :=
    List.pairwise_map.mpr h
  exact hlt.imp ne_of_lt

/-- `downPick` returns `none` exactly when no record is at or below `v`. -/
theorem downPick_none_iff (ms : List Migration) (v : Int) :
    downPick ms v = none ↔ ∀ m ∈ ms, ¬ m.version ≤ v := by
  simp [downPick, List.find?_eq_none]

/-- A picked record belongs to the registry and is at or below `v`. -/
theorem downPick_some_mem_le (ms : List Migration) (v : Int) (m : Migration)
    (h : downPick ms v = some m) : m ∈ ms ∧ m.version ≤ v := by
  refine ⟨List.mem_reverse.mp (List.mem_of_find?_eq_some h), ?_⟩
  have := List.find?_some h
  simpa using this

/-- On a descending list, the first record at or below `v` dominates every
record at or below `v`. -/
theorem find_le_greatest :
    ∀ (l : List Migration) (v : Int) (m : Migration),
      List.Pairwise (fun a b => b.version < a.version) l →
      l.find? (fun x => decide (x.version ≤ v)) = some m →
      ∀ x ∈ l, x.version ≤ v → x.version ≤ m.version := by
  intro l
  induction l with
  | nil => intro v m _ h; simp at h
  | cons a t ih =>
    intro v m hp hf x hx hxv
    obtain ⟨hhd, htl⟩ := List.pairwise_cons.mp hp
    by_cases ha : a.version ≤ v
    · rw [List.find?_cons_of_pos _ (by simpa using ha)] at hf
      obtain rfl : a = m := by injection hf
      rcases List.mem_cons.mp hx with rfl | hx'
      · exact le_rfl
      · exact le_of_lt (hhd x hx')
    · rw [List.find?_cons_of_neg _ (by simpa using ha)] at hf
      rcases List.mem_cons.mp hx with rfl | hx'
      · exact absurd hxv ha
      · exact ih v m htl hf x hx' hxv

/-- In a registry sorted ascending by version, `downPick` returns the
greatest record at or below `v`. -/
theorem downPick_is_greatest (ms : List Migration) (v : Int) (m : Migration)
    (hsorted : List.Pairwise (fun a b => a.version < b.version) ms)
    (h : downPick ms v = some m) :
    ∀ x ∈ ms, x.version ≤ v → x.version ≤ m.version := by
  intro x hx hxv
  have hrev : List.Pairwise (fun a b => b.version < a.version) ms.reverse := by
    simpa [List.pairwise_reverse] using hsorted
  exact find_le_greatest ms.reverse v m hrev h x (List.mem_reverse.mpr hx) hxv

end GoPgMigrations

namespace GoPgMigrations

/-- C3 counterexample: registry `{1}`, ledger `[1, 2]` (current version 2).
No record has version exactly 2, yet `down` does not return `(2, 2)`
unchanged: it applies record 1's down step and appends `0`. -/
theorem down_exact_match_counterexample :
    (run [⟨1, false, true, false, some true⟩] [1, 2] ["down"]).newVersion = 0 ∧
    (run [⟨1, false, true, false, some true⟩] [1, 2] ["down"]).ledger ≠ [1, 2] := by
  decide

/-- C3 amended: for current version `v > 0`, `down` locates the single
Migration Record with the *greatest version at most `v`* (an exact match is
not required); if no record has version at most `v`, it returns `(v, v)`
unchanged; otherwise it runs that record's down action (a missing down
action is a no-op), appends that record's version minus 1 to the ledger,
and commits. -/
theorem down_targets_greatest_at_most_current (ms : List Migration)
    (L : List Int)
    (hsorted : List.Pairwise (fun a b => a.version < b.version) ms)
    (hdown : ∀ m ∈ ms, m.down ≠ some false)
    (hv : 0 < currentVersion L) :
    ((∀ m ∈ ms, ¬ m.version ≤ currentVersion L) →
      run ms L ["down"] =
        ⟨currentVersion L, currentVersion L, none, L,
         [Event.beganTx, Event.committed]⟩) ∧
    (∀ m, downPick ms (currentVersion L) = some m →
      m ∈ ms ∧ m.version ≤ currentVersion L ∧
      (∀ x ∈ ms, x.version ≤ currentVersion L → x.version ≤ m.version) ∧
      run ms L ["down"] =
        ⟨currentVersion L, m.version - 1, none, L ++ [m.version - 1],
         [Event.beganTx] ++
           (match m.down with
            | none => []
            | some _ => [Event.ranDown m.version m.downTx]) ++
           [Event.appended (m.version - 1), Event.committed]⟩) := by
  have hval := validate_none_of_sorted ms hsorted
  have hv' : ¬ currentVersion L = 0 := by omega
  constructor
  · intro hnone
    have hpick : downPick ms (currentVersion L) = none :=
      (downPick_none_iff ms (currentVersion L)).mpr hnone
    simp [run, hval, downOnce, hv', hpick, finishRun, commitClose]
  · intro m hpick
    obtain ⟨hm, hmle⟩ := downPick_some_mem_le ms (currentVersion L) m hpick
    refine ⟨hm, hmle, downPick_is_greatest ms _ m hsorted hpick, ?_⟩
    have hd := hdown m hm
    cases hdm : m.down with
    | none =>
      simp [run, hval, downOnce, hv', hpick, hdm, finishRun, commitClose]
    | some ok =>
      cases ok with
      | false => exact absurd hdm hd
      | true =>
        simp [run, hval, downOnce, hv', hpick, hdm, finishRun, commitClose]

/-- Witness for C3 at registry `{2}` and ledger `[2]`: `down` picks the
record with version 2 and steps to 1. -/
theorem down_targets_greatest_at_most_current_witness :
    (0 : Int) < currentVersion [2] ∧
    downPick [⟨2, false, true, true, some true⟩] (currentVersion [2]) =
      some ⟨2, false, true, true, some true⟩ ∧
    run [⟨2, false, true, true, some true⟩] [2] ["down"] =
      ⟨currentVersion [2], 1, none, [2, 1],
       [Event.beganTx, Event.ranDown 2 true, Event.appended 1,
        Event.committed]⟩ := by
  refine ⟨by decide, by decide, ?_⟩
  have h := (down_targets_greatest_at_most_current
    [⟨2, false, true, true, some true⟩] [2] (by decide) (by decide)
    (by decide)).2 ⟨2, false, true, true, some true⟩ (by decide)
  simpa using h.2.2.2

/-- C4 counterexample: registering a second record with version 1 does not
fail and changes the registry's observable contents. -/
theorem register_duplicate_counterexample :
    addMigration [⟨1, false, true, false, none⟩] ⟨1, true, true, false, none⟩ =
      [⟨1, false, true, false, none⟩, ⟨1, true, true, false, none⟩] ∧
    ([⟨1, false, true, false, none⟩, ⟨1, true, true, false, none⟩] :
        List Migration) ≠ [⟨1, false, true, false, none⟩] := by
  decide

/-- `addMigration` inserts the new record, permuting nothing else. -/
theorem addMigration_perm :
    ∀ (ms : List Migration) (m : Migration),
      (addMigration ms m).Perm (m :: ms)
  | [], m => List.Perm.refl _
  | mm :: rest, m => by
    by_cases h : m.version < mm.version
    · simp [addMigration, h]
    · rw [addMigration, if_neg h]
      exact ((addMigration_perm rest m).cons mm).trans
        (List.Perm.swap m mm rest)

/-- `addMigration` keeps the registry ordered by version. -/
theorem addMigration_sorted :
    ∀ (ms : List Migration) (m : Migration),
      List.Pairwise (fun a b => a.version ≤ b.version) ms →
      List.Pairwise (fun a b => a.version ≤ b.version) (addMigration ms m)
  | [], m, _ => by simp [addMigration]
  | mm :: rest, m, hp => by
    obtain ⟨hhd, htl⟩ := List.pairwise_cons.mp hp
    by_cases h : m.version < mm.version
    · rw [addMigration, if_pos h]
      refine List.pairwise_cons.mpr ⟨?_, hp⟩
      intro b hb
      rcases List.mem_cons.mp hb with rfl | hb'
      · exact le_of_lt h
      · exact le_trans (le_of_lt h) (hhd b hb')
    · rw [addMigration, if_neg h]
      refine List.pairwise_cons.mpr ⟨?_, addMigration_sorted rest m htl⟩
      intro b hb
      rcases List.mem_cons.mp ((addMigration_perm rest m).mem_iff.mp hb) with
        rfl | hb'
      · exact not_lt.mp h
      · exact hhd b hb'

/-- C4 amended: registering a record whose version collides with an
existing one does *not* fail and does mutate the registry — the record is
inserted (order by version kept); the collision is detected only when
`Run` is invoked: validation reports the duplicated version and `Run`
fails before opening a transaction, reading or writing the ledger, or
running any action. -/
theorem register_duplicate_detected_at_run (ms : List Migration)
    (m : Migration) :
    (addMigration ms m).Perm (m :: ms) ∧
    (List.Pairwise (fun a b => a.version ≤ b.version) ms →
      List.Pairwise (fun a b => a.version ≤ b.version) (addMigration ms m)) ∧
    (m.version ∈ ms.map Migration.version →
      validateMigrations (addMigration ms m) ≠ none) ∧
    (∀ d (L : List Int) (args : List String),
      validateMigrations (addMigration ms m) = some d →
      run (addMigration ms m) L args =
        ⟨0, 0, some (.duplicateVersion d), L, []⟩) := by
  refine ⟨addMigration_perm ms m, addMigration_sorted ms m, ?_, ?_⟩
  · intro hdup hnone
    have hnd := (nodup_of_validateFrom_none (addMigration ms m) [] hnone).1
    have hperm : ((addMigration ms m).map Migration.version).Perm
        (m.version :: ms.map Migration.version) :=
      (addMigration_perm ms m).map Migration.version
    have := (hperm.nodup_iff).mp hnd
    exact (List.nodup_cons.mp this).1 hdup
  · intro d L args hd
    simp [run, hd]

/-- Witness for C4: a duplicate registration at version 1 then causes every
`Run` to fail with the duplicate-version error, leaving the ledger alone. -/
theorem register_duplicate_detected_at_run_witness :
    ((⟨1, true, true, false, none⟩ : Migration).version ∈
      ([⟨1, false, true, false, none⟩] : List Migration).map Migration.version) ∧
    validateMigrations
      (addMigration [⟨1, false, true, false, none⟩] ⟨1, true, true, false, none⟩)
      ≠ none ∧
    run (addMigration [⟨1, false, true, false, none⟩]
        ⟨1, true, true, false, none⟩) [7] ["up"] =
      ⟨0, 0, some (.duplicateVersion 1), [7], []⟩ := by
  refine ⟨by decide, ?_, ?_⟩
  · exact (register_duplicate_detected_at_run [⟨1, false, true, false, none⟩]
      ⟨1, true, true, false, none⟩).2.2.1 (by decide)
  · exact (register_duplicate_detected_at_run [⟨1, false, true, false, none⟩]
      ⟨1, true, true, false, none⟩).2.2.2 1 [7] ["up"] (by decide)

end GoPgMigrations

namespace GoPgMigrations

/-- Witness for C5: registry `{1}`, ledger `[5]`, target `"3"`. -/
theorem up_target_below_current_noop_witness :
    validateMigrations [⟨1, false, true, false, none⟩] = none ∧
    parseInt "3" = some 3 ∧
    (3 : Int) < currentVersion [5] ∧
    run [⟨1, false, true, false, none⟩] [5] ["up", "3"] =
      ⟨currentVersion [5], currentVersion [5], none, [5],
       [Event.beganTx, Event.committed]⟩ :=
  ⟨by decide, by decide, by decide,
   up_target_below_current_noop [⟨1, false, true, false, none⟩] [5] "3" 3
     (by decide) (by decide) (Or.inl (by decide))⟩

/-- Witness for C7: `set_version 999` on an empty registry and ledger, then
`version`.  No record with version 999 exists. -/
theorem set_version_appends_unconditionally_witness :
    validateMigrations ([] : List Migration) = none ∧
    parseInt "999" = some 999 ∧
    run [] [] ["set_version", "999"] =
      ⟨currentVersion [], 999, none, [] ++ [999],
       [Event.beganTx, Event.appended 999, Event.committed]⟩ ∧
    run [] ([] ++ [999]) ["version"] =
      ⟨999, 999, none, [] ++ [999], [Event.beganTx, Event.committed]⟩ :=
  ⟨by decide, by decide,
   (set_version_appends_unconditionally [] [] "999" 999 (by decide)).1
     (by decide),
   (set_version_appends_unconditionally [] [] "999" 999 (by decide)).2.1⟩

end GoPgMigrations

namespace GoPgMigrations

/-- A block of applied-migration events always starts with `beganTx`. -/
theorem bind_upBlock_cons (r : Migration) (rest : List Migration) :
    (r :: rest).bind upBlock =
      Event.beganTx :: ((r :: rest).bind upBlock).drop 1 := by
  simp [upBlock]

/-- Entering the `up` loop with no open transaction first begins one
(when the head migration is within the target, so the loop body is
reached). -/
theorem upLoop_begin (target : Int) (m : Migration) (P : List Migration)
    (st : RunState) (hcl : st.txOpen = false) (hm : m.version ≤ target) :
    upLoop (m :: P) target st = upLoop (m :: P) target (beginTx st) := by
  simp only [upLoop, if_neg (not_lt.mpr hm), hcl, Bool.false_eq_true,
    if_false, beginTx, if_true]


/-- Success characterization of the `up` loop, entered with an open
transaction whose read version matches the ledger: with every pending
migration succeeding, it applies exactly the registered migrations beyond
the read version, committing them one by one. -/
theorem upLoop_ok (target : Int) :
    ∀ (P : List Migration) (st : RunState),
      st.txOpen = true → st.pending = [] →
      st.version = currentVersion st.ledger →
      List.Pairwise (fun a b => a.version < b.version) P →
      (∀ m ∈ P, m.version ≤ target) →
      (∀ m ∈ P, st.version < m.version → m.upOk = true) →
      ∃ st', upLoop P target st = (st', none) ∧
        st'.ledger = st.ledger ++
          (P.filter (fun x => decide (st.version < x.version))).map
            Migration.version ∧
        st'.events = st.events ++
          ((P.filter (fun x => decide (st.version < x.version))).bind
            upBlock).drop 1 ∧
        st'.newVersion =
          ((P.filter (fun x => decide (st.version < x.version))).map
            Migration.version).getLastD st.newVersion ∧
        st'.txOpen =
          (P.filter (fun x => decide (st.version < x.version))).isEmpty ∧
        st'.pending = [] := by
  intro P
  induction P with
  | nil =>
    intro st hopen hpend _ _ _ _
    exact ⟨st, rfl, by simp, by simp, by simp, by simp [hopen], hpend⟩
  | cons m rest ih =>
    intro st hopen hpend hver hsort htgt hok
    obtain ⟨hhd, htl⟩ := List.pairwise_cons.mp hsort
    have hmt : m.version ≤ target := htgt m (List.mem_cons_self _ _)
    by_cases hskip : m.version ≤ st.version
    · have hstep : upLoop (m :: rest) target st = upLoop rest target st := by
        simp [upLoop, not_lt.mpr hmt, hopen, hskip]
      have hfil : (m :: rest).filter (fun x => decide (st.version < x.version))
          = rest.filter (fun x => decide (st.version < x.version)) :=
        List.filter_cons_of_neg (by simp [not_lt.mpr hskip])
      obtain ⟨st', h1, h2, h3, h4, h5, h6⟩ :=
        ih st hopen hpend hver htl
          (fun x hx => htgt x (List.mem_cons_of_mem _ hx))
          (fun x hx => hok x (List.mem_cons_of_mem _ hx))
      exact ⟨st', by rw [hstep]; exact h1, by rw [hfil]; exact h2,
        by rw [hfil]; exact h3, by rw [hfil]; exact h4,
        by rw [hfil]; exact h5, h6⟩
    · push_neg at hskip
      have hfil : decide (st.version < m.version) = true := by simp [hskip]
      have hfilcons : (m :: rest).filter
          (fun x => decide (st.version < x.version)) =
          m :: rest.filter (fun x => decide (st.version < x.version)) :=
        List.filter_cons_of_pos hfil
      have hrest_fil :
          rest.filter (fun x => decide (st.version < x.version)) = rest := by
        refine List.filter_eq_self.mpr ?_
        intro x hx
        simpa using lt_trans hskip (hhd x hx)
      have hup : m.upOk = true := hok m (List.mem_cons_self _ _) hskip
      obtain ⟨stC, hstep, hCledger, hCevents, hCnew, hCopen, hCpend⟩ :
          ∃ stC, upLoop (m :: rest) target st = upLoop rest target stC ∧
            stC.ledger = st.ledger ++ [m.version] ∧
            stC.events = st.events ++ [Event.ranUp m.version m.upTx,
              Event.appended m.version, Event.committed] ∧
            stC.newVersion = m.version ∧ stC.txOpen = false ∧
            stC.pending = [] := by
        refine ⟨commitClose { st with
            events := st.events ++ [Event.ranUp m.version m.upTx] ++
              [Event.appended m.version],
            pending := st.pending ++ [m.version],
            newVersion := m.version }, ?_, ?_, ?_, ?_, ?_, ?_⟩
        · simp [upLoop, not_lt.mpr hmt, hopen, not_le.mpr hskip, hup]
        · simp [commitClose, hpend]
        · simp [commitClose]
        · simp [commitClose]
        · simp [commitClose]
        · simp [commitClose]
      cases rest with
      | nil =>
        refine ⟨stC, by rw [hstep]; rfl, ?_, ?_, ?_, ?_, hCpend⟩
        · rw [hfilcons]; simpa using hCledger
        · rw [hfilcons]; simpa [upBlock] using hCevents
        · rw [hfilcons]; simpa using hCnew
        · rw [hfilcons]; simpa using hCopen
      | cons r rest' =>
        have hbeq : upLoop (r :: rest') target stC =
            upLoop (r :: rest') target (beginTx stC) :=
          upLoop_begin target r rest' stC hCopen
            (htgt r (List.mem_cons_of_mem _ (List.mem_cons_self _ _)))
        have hBopen : (beginTx stC).txOpen = true := by simp [beginTx]
        have hBpend : (beginTx stC).pending = [] := by simp [beginTx]
        have hBver : (beginTx stC).version =
            currentVersion (beginTx stC).ledger := by simp [beginTx]
        have hBver' : (beginTx stC).version = m.version := by
          simp [beginTx, hCledger, currentVersion_append]
        have hBevents : (beginTx stC).events = st.events ++
            [Event.ranUp m.version m.upTx, Event.appended m.version,
             Event.committed, Event.beganTx] := by
          simp [beginTx, hCevents]
        have hBledger : (beginTx stC).ledger = st.ledger ++ [m.version] := by
          simp [beginTx, hCledger]
        have hBnew : (beginTx stC).newVersion = m.version := by
          simp [beginTx, hCnew]
        obtain ⟨st', h1, h2, h3, h4, h5, h6⟩ :=
          ih (beginTx stC) hBopen hBpend hBver htl
            (fun x hx => htgt x (List.mem_cons_of_mem _ hx))
            (by
              intro x hx _
              exact hok x (List.mem_cons_of_mem _ hx)
                (lt_trans hskip (hhd x hx)))
        have hfil' : (r :: rest').filter
            (fun x => decide ((beginTx stC).version < x.version)) =
            r :: rest' := by
          refine List.filter_eq_self.mpr ?_
          intro x hx
          simpa [hBver'] using hhd x hx
        refine ⟨st', ?_, ?_, ?_, ?_, ?_, h6⟩
        · rw [hstep, hbeq]; exact h1
        · rw [h2, hfil', hBledger, hfilcons, hrest_fil]
          simp
        · rw [h3, hfil', hBevents, hfilcons, hrest_fil,
            bind_upBlock_cons r rest']
          simp [upBlock]
        · rw [h4, hfil', hBnew, hfilcons, hrest_fil]
          simp only [List.map_cons, List.getLastD_cons]
        · rw [h5, hfil', hfilcons, hrest_fil]
          simp

end GoPgMigrations

namespace GoPgMigrations

/-- Failure characterization of the `up` loop: when the migrations beyond
the read version split as `G ++ f :: T` with every migration of `G`
succeeding and `f` failing, the loop applies and commits exactly `G`, runs
`f`'s action, and stops with the error (and the Go `newVersion` result 0),
never reaching `T`. -/
theorem upLoop_fail (target : Int) :
    ∀ (P : List Migration) (st : RunState) (G T : List Migration)
      (f : Migration),
      st.txOpen = true → st.pending = [] →
      st.version = currentVersion st.ledger →
      List.Pairwise (fun a b => a.version < b.version) P →
      (∀ m ∈ P, m.version ≤ target) →
      P.filter (fun x => decide (st.version < x.version)) = G ++ f :: T →
      (∀ m ∈ G, m.upOk = true) → f.upOk = false →
      ∃ st', upLoop P target st = (st', some (.upActionFailed f.version)) ∧
        st'.ledger = st.ledger ++ G.map Migration.version ∧
        st'.events = st.events ++ (G.bind upBlock).drop 1 ++
          (if G.isEmpty then ([] : List Event) else [Event.beganTx]) ++
          [Event.ranUp f.version f.upTx] ∧
        st'.newVersion = 0 ∧
        st'.txOpen = true ∧ st'.pending = [] := by
  intro P
  induction P with
  | nil =>
    intro st G T f _ _ _ _ _ hsplit _ _
    simp at hsplit
  | cons m rest ih =>
    intro st G T f hopen hpend hver hsort htgt hsplit hG hf
    obtain ⟨hhd, htl⟩ := List.pairwise_cons.mp hsort
    have hmt : m.version ≤ target := htgt m (List.mem_cons_self _ _)
    by_cases hskip : m.version ≤ st.version
    · have hstep : upLoop (m :: rest) target st = upLoop rest target st := by
        simp [upLoop, not_lt.mpr hmt, hopen, hskip]
      have hfil : (m :: rest).filter (fun x => decide (st.version < x.version))
          = rest.filter (fun x => decide (st.version < x.version)) :=
        List.filter_cons_of_neg (by simp [not_lt.mpr hskip])
      obtain ⟨st', h1, h2, h3, h4, h5, h6⟩ :=
        ih st G T f hopen hpend hver htl
          (fun x hx => htgt x (List.mem_cons_of_mem _ hx))
          (by rw [← hfil]; exact hsplit) hG hf
      exact ⟨st', by rw [hstep]; exact h1, h2, h3, h4, h5, h6⟩
    · push_neg at hskip
      have hfilp : decide (st.version < m.version) = true := by simp [hskip]
      have hfilcons : (m :: rest).filter
          (fun x => decide (st.version < x.version)) =
          m :: rest.filter (fun x => decide (st.version < x.version)) :=
        List.filter_cons_of_pos hfilp
      have hrest_fil :
          rest.filter (fun x => decide (st.version < x.version)) = rest := by
        refine List.filter_eq_self.mpr ?_
        intro x hx
        simpa using lt_trans hskip (hhd x hx)
      have hsplit' : m :: rest = G ++ f :: T := by
        rw [← hsplit, hfilcons, hrest_fil]
      cases G with
      | nil =>
        obtain ⟨rfl, rfl⟩ : m = f ∧ rest = T := by
          simpa using hsplit'
        refine ⟨{ st with
            events := st.events ++ [Event.ranUp m.version m.upTx],
            newVersion := 0 }, ?_, by simp, by simp, rfl, by simp [hopen],
            by simp [hpend]⟩
        simp [upLoop, not_lt.mpr hmt, hopen, not_le.mpr hskip, hf]
      | cons g G' =>
        rw [List.cons_append] at hsplit'
        injection hsplit' with h1 h2
        subst h1
        subst h2
        have hup : m.upOk = true := hG m (List.mem_cons_self _ _)
        obtain ⟨stC, hstep, hCledger, hCevents, hCnew, hCopen, hCpend⟩ :
            ∃ stC, upLoop (m :: (G' ++ f :: T)) target st =
                upLoop (G' ++ f :: T) target stC ∧
              stC.ledger = st.ledger ++ [m.version] ∧
              stC.events = st.events ++ [Event.ranUp m.version m.upTx,
                Event.appended m.version, Event.committed] ∧
              stC.newVersion = m.version ∧ stC.txOpen = false ∧
              stC.pending = [] := by
          refine ⟨commitClose { st with
              events := st.events ++ [Event.ranUp m.version m.upTx] ++
                [Event.appended m.version],
              pending := st.pending ++ [m.version],
              newVersion := m.version }, ?_, ?_, ?_, ?_, ?_, ?_⟩
          · simp [upLoop, not_lt.mpr hmt, hopen, not_le.mpr hskip, hup]
          · simp [commitClose, hpend]
          · simp [commitClose]
          · simp [commitClose]
          · simp [commitClose]
          · simp [commitClose]
        rcases hc : G' ++ f :: T with _ | ⟨r, rest2⟩
        · simp at hc
        have hrmem : r ∈ m :: (G' ++ f :: T) := by
          rw [hc]
          exact List.mem_cons_of_mem _ (List.mem_cons_self _ _)
        have hbeq : upLoop (r :: rest2) target stC =
            upLoop (r :: rest2) target (beginTx stC) :=
          upLoop_begin target r rest2 stC hCopen (htgt r hrmem)
        have hBopen : (beginTx stC).txOpen = true := by simp [beginTx]
        have hBpend : (beginTx stC).pending = [] := by simp [beginTx]
        have hBver : (beginTx stC).version =
            currentVersion (beginTx stC).ledger := by simp [beginTx]
        have hBver' : (beginTx stC).version = m.version := by
          simp [beginTx, hCledger, currentVersion_append]
        have hBevents : (beginTx stC).events = st.events ++
            [Event.ranUp m.version m.upTx, Event.appended m.version,
             Event.committed, Event.beganTx] := by
          simp [beginTx, hCevents]
        have hBledger : (beginTx stC).ledger = st.ledger ++ [m.version] := by
          simp [beginTx, hCledger]
        have hfil2 : (G' ++ f :: T).filter
            (fun x => decide ((beginTx stC).version < x.version)) =
            G' ++ f :: T := by
          refine List.filter_eq_self.mpr ?_
          intro x hx
          simpa [hBver'] using hhd x hx
        have hG' : ∀ x ∈ G', x.upOk = true :=
          fun x hx => hG x (List.mem_cons_of_mem _ hx)
        obtain ⟨st', h1, h2, h3, h4, h5, h6⟩ :=
          ih (beginTx stC) G' T f hBopen hBpend hBver htl
            (fun x hx => htgt x (List.mem_cons_of_mem _ hx))
            hfil2 hG' hf
        refine ⟨st', ?_, ?_, ?_, h4, h5, h6⟩
        · rw [← hc, hstep, hc, hbeq, ← hc]
          exact h1
        · rw [h2, hBledger]
          simp
        · rw [h3, hBevents]
          cases G' with
          | nil => simp [upBlock]
          | cons g' G'' => simp [upBlock]

end GoPgMigrations

namespace GoPgMigrations

/-- The up actions recorded by a run of applied blocks are exactly the
applied versions, in order. -/
theorem ranUpVersions_bind (P : List Migration) :
    ranUpVersions (P.bind upBlock) = P.map Migration.version := by
  induction P with
  | nil => rfl
  | cons m rest ih =>
    simp only [List.cons_bind, ranUpVersions, List.filterMap_append] at *
    rw [ih]
    rfl

/-- No up action is recorded by `[beganTx]`, `[committed]` or their likes. -/
theorem ranUpVersions_append (e₁ e₂ : List Event) :
    ranUpVersions (e₁ ++ e₂) = ranUpVersions e₁ ++ ranUpVersions e₂ := by
  simp [ranUpVersions, List.filterMap_append]

/-- The last element of a non-empty list is a member. -/
theorem getLastD_mem : ∀ (l : List Int) (d : Int), l ≠ [] → l.getLastD d ∈ l
  | [], _, h => absurd rfl h
  | [a], d, _ => by simp [List.getLastD_cons]
  | a :: b :: t, d, _ => by
    rw [List.getLastD_cons]
    exact List.mem_cons_of_mem _ (getLastD_mem (b :: t) a (by simp))

/-- In a strictly ascending list every element is at most the last. -/
theorem sorted_le_getLastD :
    ∀ (l : List Int) (d : Int), List.Pairwise (· < ·) l →
      ∀ x ∈ l, x ≤ l.getLastD d
  | [], _, _, x, hx => absurd hx (by simp)
  | a :: t, d, hp, x, hx => by
    rw [List.getLastD_cons]
    obtain ⟨hhd, htl⟩ := List.pairwise_cons.mp hp
    rcases List.mem_cons.mp hx with rfl | hx'
    · cases t with
      | nil => simp
      | cons b t' =>
        refine le_trans (le_of_lt (hhd b (List.mem_cons_self _ _))) ?_
        exact sorted_le_getLastD (b :: t') x htl b (List.mem_cons_self _ _)
    · exact sorted_le_getLastD t a htl x hx'

/-- C1: for every non-empty registry with distinct versions (sorted, as the
registry maintains) and an empty ledger, `up` with no target applies the up
action of every migration in strictly ascending order of version, and the
result is `(0, max of the versions)`. -/
theorem up_empty_ledger_ascending (ms : List Migration)
    (hne : ms ≠ [])
    (hsorted : List.Pairwise (fun a b => a.version < b.version) ms)
    (hpos : ∀ m ∈ ms, 0 < m.version ∧ m.version ≤ goMaxInt64)
    (hok : ∀ m ∈ ms, m.upOk = true) :
    (run ms [] ["up"]).error = none ∧
    (run ms [] ["up"]).oldVersion = 0 ∧
    ranUpVersions (run ms [] ["up"]).events = ms.map Migration.version ∧
    List.Pairwise (· < ·) (ranUpVersions (run ms [] ["up"]).events) ∧
    (∀ m ∈ ms, m.version ≤ (run ms [] ["up"]).newVersion) ∧
    (run ms [] ["up"]).newVersion ∈ ms.map Migration.version ∧
    (run ms [] ["up"]).ledger = ms.map Migration.version := by
  have hval := validate_none_of_sorted ms hsorted
  have hfil : ms.filter (fun x =>
      decide ((⟨[], [Event.beganTx], true, [], 0, 0⟩ : RunState).version
        < x.version)) = ms := by
    refine List.filter_eq_self.mpr ?_
    intro x hx
    simpa using (hpos x hx).1
  obtain ⟨st', h1, h2, h3, h4, h5, h6⟩ :=
    upLoop_ok goMaxInt64 ms ⟨[], [Event.beganTx], true, [], 0, 0⟩
      rfl rfl rfl hsorted (fun m hm => (hpos m hm).2) 
      (fun m hm _ => hok m hm)
  rw [hfil] at h2 h3 h4 h5
  have hopenF : st'.txOpen = false := by
    rw [h5]
    cases ms with
    | nil => exact absurd rfl hne
    | cons a t => rfl
  have hrun : run ms [] ["up"] =
      ⟨0, st'.newVersion, none, st'.ledger, st'.events⟩ := by
    simp [run, hval, currentVersion, h1, finishRun, hopenF]
  rw [hrun]
  have hev : st'.events = ms.bind upBlock := by
    rw [h3]
    cases ms with
    | nil => exact absurd rfl hne
    | cons a t =>
      rw [bind_upBlock_cons a t]
      rfl
  have hmap_ne : ms.map Migration.version ≠ [] := by
    cases ms with
    | nil => exact absurd rfl hne
    | cons a t => simp
  have hsort_map : List.Pairwise (· < ·) (ms.map Migration.version) :=
    List.pairwise_map.mpr hsorted
  refine ⟨rfl, rfl, ?_, ?_, ?_, ?_, by simpa using h2⟩
  · simpa [hev] using ranUpVersions_bind ms
  · rw [show ranUpVersions (⟨0, st'.newVersion, none, st'.ledger,
      st'.events⟩ : RunResult).events = ranUpVersions st'.events from rfl,
      hev, ranUpVersions_bind ms]
    exact hsort_map
  · intro m hm
    rw [show (⟨0, st'.newVersion, none, st'.ledger, st'.events⟩ :
      RunResult).newVersion = st'.newVersion from rfl, h4]
    exact sorted_le_getLastD (ms.map Migration.version) 0 hsort_map
      m.version (List.mem_map_of_mem Migration.version hm)
  · rw [show (⟨0, st'.newVersion, none, st'.ledger, st'.events⟩ :
      RunResult).newVersion = st'.newVersion from rfl, h4]
    exact getLastD_mem (ms.map Migration.version) 0 hmap_ne

end GoPgMigrations

namespace GoPgMigrations

/-- Each applied-migration block contains exactly one commit. -/
theorem count_committed_bind (G : List Migration) :
    (G.bind upBlock).count Event.committed = G.length := by
  induction G with
  | nil => rfl
  | cons g G' ih =>
    simp [upBlock, List.count_append, ih, List.count_cons]

/-- C2: during `up`, each applied migration is committed individually —
run the up action (on the transaction iff transactional), append the
version, commit, then begin the next transaction; when the migration after
the successful prefix `G` fails, exactly `G`'s rows are in the ledger
(`G.length` commits), the failing step is rolled back, and no later
migration is attempted. -/
theorem up_per_migration_commit_failure_isolation (ms : List Migration)
    (L : List Int) (G T : List Migration) (f : Migration)
    (hsorted : List.Pairwise (fun a b => a.version < b.version) ms)
    (hrange : ∀ m ∈ ms, m.version ≤ goMaxInt64)
    (hsplit : ms.filter (fun x => decide (currentVersion L < x.version)) =
      G ++ f :: T)
    (hG : ∀ m ∈ G, m.upOk = true)
    (hf : f.upOk = false) :
    (run ms L ["up"]).error = some (.upActionFailed f.version) ∧
    (run ms L ["up"]).ledger = L ++ G.map Migration.version ∧
    (run ms L ["up"]).events =
      G.bind upBlock ++
        [Event.beganTx, Event.ranUp f.version f.upTx, Event.rolledBack] ∧
    (run ms L ["up"]).events.count Event.committed = G.length := by
  have hval := validate_none_of_sorted ms hsorted
  obtain ⟨st', h1, h2, h3, h4, h5, h6⟩ :=
    upLoop_fail goMaxInt64 ms
      ⟨L, [Event.beganTx], true, [], currentVersion L, currentVersion L⟩
      G T f rfl rfl rfl hsorted hrange hsplit hG hf
  have hrun : run ms L ["up"] =
      ⟨currentVersion L, 0, some (.upActionFailed f.version), st'.ledger,
       st'.events ++ [Event.rolledBack]⟩ := by
    simp [run, hval, h1, finishRun, h4, h5]
  have hev : st'.events ++ [Event.rolledBack] =
      G.bind upBlock ++
        [Event.beganTx, Event.ranUp f.version f.upTx, Event.rolledBack] := by
    rw [h3]
    cases G with
    | nil => simp
    | cons g G' =>
      rw [bind_upBlock_cons g G']
      simp [upBlock]
  refine ⟨by rw [hrun], by rw [hrun]; exact h2, by rw [hrun]; exact hev, ?_⟩
  rw [hrun]
  show (st'.events ++ [Event.rolledBack]).count Event.committed = G.length
  rw [hev, List.count_append, count_committed_bind]
  rfl

/-- Witness for C2: registry `{1 (ok), 2 (fails), 3 (ok)}`, empty ledger:
migration 1 is durably applied, migration 2 rolled back, 3 not attempted. -/
theorem up_per_migration_commit_failure_isolation_witness :
    (([⟨1, true, true, false, none⟩, ⟨2, false, false, false, none⟩,
       ⟨3, false, true, false, none⟩] : List Migration).filter
        (fun x => decide (currentVersion [] < x.version)) =
      [⟨1, true, true, false, none⟩] ++ ⟨2, false, false, false, none⟩ ::
        [⟨3, false, true, false, none⟩]) ∧
    (run [⟨1, true, true, false, none⟩, ⟨2, false, false, false, none⟩,
       ⟨3, false, true, false, none⟩] [] ["up"]).error =
      some (.upActionFailed 2) ∧
    (run [⟨1, true, true, false, none⟩, ⟨2, false, false, false, none⟩,
       ⟨3, false, true, false, none⟩] [] ["up"]).ledger = [] ++ [1] ∧
    (run [⟨1, true, true, false, none⟩, ⟨2, false, false, false, none⟩,
       ⟨3, false, true, false, none⟩] [] ["up"]).events =
      [Event.beganTx, Event.ranUp 1 true, Event.appended 1, Event.committed,
       Event.beganTx, Event.ranUp 2 false, Event.rolledBack] ∧
    (run [⟨1, true, true, false, none⟩, ⟨2, false, false, false, none⟩,
       ⟨3, false, true, false, none⟩] [] ["up"]).events.count
        Event.committed = 1 := by
  have h := up_per_migration_commit_failure_isolation
    [⟨1, true, true, false, none⟩, ⟨2, false, false, false, none⟩,
     ⟨3, false, true, false, none⟩] []
    [⟨1, true, true, false, none⟩] [⟨3, false, true, false, none⟩]
    ⟨2, false, false, false, none⟩
    (by decide) (by decide) (by decide) (by decide) (by decide)
  refine ⟨by decide, h.1, by simpa using h.2.1, by simpa [upBlock] using
    h.2.2.1, by simpa using h.2.2.2⟩

end GoPgMigrations

namespace GoPgMigrations

/-- Witness for C1: registry `{1, 3}` (gapped versions), empty ledger. -/
theorem up_empty_ledger_ascending_witness :
    (([⟨1, false, true, false, none⟩, ⟨3, true, true, false, none⟩] :
        List Migration) ≠ []) ∧
    List.Pairwise (fun a b => a.version < b.version)
      ([⟨1, false, true, false, none⟩, ⟨3, true, true, false, none⟩] :
        List Migration) ∧
    (∀ m ∈ ([⟨1, false, true, false, none⟩, ⟨3, true, true, false, none⟩] :
        List Migration), 0 < m.version ∧ m.version ≤ goMaxInt64) ∧
    ((run [⟨1, false, true, false, none⟩, ⟨3, true, true, false, none⟩] []
        ["up"]).error = none ∧
     (run [⟨1, false, true, false, none⟩, ⟨3, true, true, false, none⟩] []
        ["up"]).oldVersion = 0 ∧
     ranUpVersions (run [⟨1, false, true, false, none⟩,
        ⟨3, true, true, false, none⟩] [] ["up"]).events =
       ([⟨1, false, true, false, none⟩, ⟨3, true, true, false, none⟩] :
         List Migration).map Migration.version ∧
     List.Pairwise (· < ·) (ranUpVersions
       (run [⟨1, false, true, false, none⟩, ⟨3, true, true, false, none⟩] []
         ["up"]).events) ∧
     (∀ m ∈ ([⟨1, false, true, false, none⟩, ⟨3, true, true, false, none⟩] :
        List Migration), m.version ≤
          (run [⟨1, false, true, false, none⟩, ⟨3, true, true, false, none⟩]
            [] ["up"]).newVersion) ∧
     (run [⟨1, false, true, false, none⟩, ⟨3, true, true, false, none⟩] []
        ["up"]).newVersion ∈
       ([⟨1, false, true, false, none⟩, ⟨3, true, true, false, none⟩] :
         List Migration).map Migration.version ∧
     (run [⟨1, false, true, false, none⟩, ⟨3, true, true, false, none⟩] []
        ["up"]).ledger =
       ([⟨1, false, true, false, none⟩, ⟨3, true, true, false, none⟩] :
         List Migration).map Migration.version) :=
  ⟨by decide, by decide, by decide,
   up_empty_ledger_ascending
     [⟨1, false, true, false, none⟩, ⟨3, true, true, false, none⟩]
     (by decide) (by decide) (by decide) (by decide)⟩

end GoPgMigrations

namespace GoPgMigrations

/-- The head of a non-empty `dropWhile` result falsifies the predicate. -/
theorem dropWhile_first_fails (p : Migration → Bool) :
    ∀ (l : List Migration) (d : Migration) (t : List Migration),
      l.dropWhile p = d :: t → p d = false := by
  intro l
  induction l with
  | nil => intro d t h; simp at h
  | cons a l' ih =>
    intro d t h
    rw [List.dropWhile_cons] at h
    by_cases hp : p a = true
    · rw [if_pos hp] at h
      exact ih d t h
    · rw [if_neg hp] at h
      injection h with h1 _
      rw [← h1]
      exact Bool.eq_false_iff.mpr hp

/-- C9: `up` with no target is idempotent: after one successful `up` run,
immediately running `up` again returns `(v, v)` where `v` is the version
reached by the first run, applies no migration action, and appends nothing
to the ledger. -/
theorem up_idempotent (ms : List Migration) (L : List Int)
    (hsorted : List.Pairwise (fun a b => a.version < b.version) ms)
    (hrange : ∀ m ∈ ms, m.version ≤ goMaxInt64)
    (hok1 : (run ms L ["up"]).error = none) :
    run ms (run ms L ["up"]).ledger ["up"] =
      ⟨(run ms L ["up"]).newVersion, (run ms L ["up"]).newVersion, none,
       (run ms L ["up"]).ledger, [Event.beganTx, Event.committed]⟩ := by
  have hval := validate_none_of_sorted ms hsorted
  have hproj : (⟨L, [Event.beganTx], true, [], currentVersion L,
      currentVersion L⟩ : RunState).version = currentVersion L := rfl
  -- every migration beyond the current version succeeds, else run 1 errors
  have hall : ∀ m ∈ ms.filter
      (fun x => decide (currentVersion L < x.version)), m.upOk = true := by
    by_contra hno
    push_neg at hno
    obtain ⟨x, hx, hxf⟩ := hno
    rcases hDc : (ms.filter
        (fun x => decide (currentVersion L < x.version))).dropWhile
        (fun m => m.upOk) with _ | ⟨fD, TD⟩
    · exact hxf (List.dropWhile_eq_nil_iff.mp hDc x hx)
    · have hsplitQ : ms.filter
          (fun x => decide (currentVersion L < x.version)) =
          (ms.filter (fun x => decide (currentVersion L < x.version))).takeWhile
            (fun m => m.upOk) ++ fD :: TD := by
        rw [← hDc]
        exact (List.takeWhile_append_dropWhile _ _).symm
      obtain ⟨st', h1, _, _, _, _, _⟩ :=
        upLoop_fail goMaxInt64 ms
          ⟨L, [Event.beganTx], true, [], currentVersion L, currentVersion L⟩
          _ TD fD rfl rfl rfl hsorted hrange hsplitQ
          (fun m hm => List.mem_takeWhile_imp hm)
          (dropWhile_first_fails _ _ fD TD hDc)
      have herr : (run ms L ["up"]).error =
          some (.upActionFailed fD.version) := by
        simp [run, hval, h1, finishRun]
      rw [herr] at hok1
      exact Option.noConfusion hok1
  obtain ⟨st', h1, h2, h3, h4, h5, h6⟩ :=
    upLoop_ok goMaxInt64 ms
      ⟨L, [Event.beganTx], true, [], currentVersion L, currentVersion L⟩
      rfl rfl rfl hsorted hrange
      (fun m hm hlt => hall m (List.mem_filter.mpr ⟨hm, by simpa using hlt⟩))
  simp only [hproj] at h2 h3 h4 h5
  rcases hQc : ms.filter (fun x => decide (currentVersion L < x.version))
    with _ | ⟨q, Q'⟩
  · rw [hQc] at h2 h3 h4 h5
    have hrun1 : run ms L ["up"] =
        ⟨currentVersion L, currentVersion L, none, L,
         [Event.beganTx, Event.committed]⟩ := by
      simp [run, hval, h1, finishRun, commitClose, h2, h3, h4, h5, h6]
    simp only [hrun1]
  · rw [hQc] at h2 h3 h4 h5
    have hopenF : st'.txOpen = false := by rw [h5]; rfl
    have hrun1 : run ms L ["up"] =
        ⟨currentVersion L, st'.newVersion, none, st'.ledger, st'.events⟩ := by
      simp [run, hval, h1, finishRun, hopenF]
    -- the ledger's new current version is the version just reached
    have hQsorted : List.Pairwise (fun a b => a.version < b.version)
        (q :: Q') := hQc ▸ List.Pairwise.sublist (List.filter_sublist ms)
          hsorted
    have hcv : currentVersion st'.ledger = st'.newVersion := by
      rw [h2, h4, List.map_cons, currentVersion,
        List.getLast?_append_of_ne_nil L (by simp),
        ← List.getLastD_eq_getLast?, List.getLastD_cons, List.getLastD_cons]
    have hmemQ : ∀ x ∈ q :: Q', currentVersion L < x.version := by
      intro x hx
      have := List.mem_filter.mp (hQc ▸ hx)
      simpa using this.2
    have hlastmem : ((q :: Q').map Migration.version).getLastD
        (currentVersion L) ∈ (q :: Q').map Migration.version :=
      getLastD_mem _ _ (by simp)
    have hv0lt : currentVersion L < st'.newVersion := by
      rw [h4]
      obtain ⟨x, hxQ, hxv⟩ := List.mem_map.mp hlastmem
      rw [← hxv]
      exact hmemQ x hxQ
    have hallle : ∀ m ∈ ms, ¬ (currentVersion st'.ledger < m.version) := by
      intro m hm
      rw [hcv]
      by_cases hvc : currentVersion L < m.version
      · have hmQ : m ∈ q :: Q' := by
          rw [← hQc]
          exact List.mem_filter.mpr ⟨hm, by simpa using hvc⟩
        rw [h4]
        exact not_lt.mpr (sorted_le_getLastD _ _
          (List.pairwise_map.mpr hQsorted) m.version
          (List.mem_map_of_mem Migration.version hmQ))
      · exact not_lt.mpr (le_of_lt (lt_of_le_of_lt (not_lt.mp hvc) hv0lt))
    have hQ2 : ms.filter
        (fun x => decide (currentVersion st'.ledger < x.version)) = [] := by
      refine List.filter_eq_nil.mpr ?_
      intro m hm
      simpa using hallle m hm
    have hproj2 : (⟨st'.ledger, [Event.beganTx], true, [],
        currentVersion st'.ledger, currentVersion st'.ledger⟩ :
          RunState).version = currentVersion st'.ledger := rfl
    obtain ⟨st2, g1, g2, g3, g4, g5, g6⟩ :=
      upLoop_ok goMaxInt64 ms
        ⟨st'.ledger, [Event.beganTx], true, [], currentVersion st'.ledger,
         currentVersion st'.ledger⟩
        rfl rfl rfl hsorted hrange
        (fun m hm hlt => absurd hlt (hallle m hm))
    simp only [hproj2] at g2 g3 g4 g5
    rw [hQ2] at g2 g3 g4 g5
    have hrun2 : run ms st'.ledger ["up"] =
        ⟨currentVersion st'.ledger, currentVersion st'.ledger, none,
         st'.ledger, [Event.beganTx, Event.committed]⟩ := by
      simp [run, hval, g1, finishRun, commitClose, g2, g3, g4, g5, g6]
    rw [hcv] at hrun2
    simp only [hrun1]
    exact hrun2

end GoPgMigrations

namespace GoPgMigrations

/-- Filtering with a pointwise-stronger predicate yields at most as many
elements. -/
theorem filter_length_mono (p q : Migration → Bool)
    (hpq : ∀ x, p x = true → q x = true) :
    ∀ l : List Migration, (l.filter p).length ≤ (l.filter q).length := by
  intro l
  induction l with
  | nil => simp
  | cons a t ih =>
    rw [List.filter_cons, List.filter_cons]
    by_cases hp : p a = true
    · rw [if_pos hp, if_pos (hpq a hp)]
      simpa using ih
    · rw [if_neg hp]
      by_cases hq : q a = true
      · rw [if_pos hq]
        exact le_trans ih (by simp)
      · rw [if_neg hq]
        exact ih

/-- With a member separating the two predicates the inequality is
strict. -/
theorem filter_length_strict (p q : Migration → Bool)
    (hpq : ∀ x, p x = true → q x = true) :
    ∀ (l : List Migration) (m : Migration), m ∈ l → q m = true →
      p m = false → (l.filter p).length < (l.filter q).length := by
  intro l
  induction l with
  | nil => intro m hm; simp at hm
  | cons a t ih =>
    intro m hm hq hp
    rw [List.filter_cons, List.filter_cons]
    rcases List.mem_cons.mp hm with rfl | hm'
    · rw [if_neg (by simp [hp]), if_pos hq]
      exact Nat.lt_succ_of_le (filter_length_mono p q hpq t)
    · by_cases hpa : p a = true
      · rw [if_pos hpa, if_pos (hpq a hpa)]
        simpa using ih m hm' hq hp
      · rw [if_neg hpa]
        by_cases hqa : q a = true
        · rw [if_pos hqa]
          exact lt_of_lt_of_le (ih m hm' hq hp) (by simp)
        · rw [if_neg hqa]
          exact ih m hm' hq hp

/-- Each version-changing `down` step strictly shrinks the set of records
at or below the current version. -/
theorem downStep_lt (ms : List Migration) (v : Int)
    (h : downStep ms v ≠ v) :
    (ms.filter (fun x => decide (x.version ≤ downStep ms v))).length <
      (ms.filter (fun x => decide (x.version ≤ v))).length := by
  by_cases hv : v = 0
  · exact absurd (by simp [hv, downStep]) h
  cases hpick : downPick ms v with
  | none => exact absurd (by rw [downStep, if_neg hv, hpick]) h
  | some m =>
    have hstep : downStep ms v = m.version - 1 := by
      rw [downStep, if_neg hv, hpick]
    obtain ⟨hm, hmle⟩ := downPick_some_mem_le ms v m hpick
    rw [hstep]
    refine filter_length_strict _ _ ?_ ms m hm (by simpa using hmle) ?_
    · intro x hxp
      have hx' : x.version ≤ m.version - 1 := by simpa using hxp
      simp only [decide_eq_true_eq]
      omega
    · simp only [decide_eq_false_iff_not]
      omega

/-- Iterating past a fixed point stays there. -/
theorem iterate_fix_stable (f : Int → Int) (v : Int) (n : Nat)
    (h : f (f^[n] v) = f^[n] v) : ∀ j, f^[n + j] v = f^[n] v := by
  intro j
  induction j with
  | zero => rfl
  | succ j ih =>
    have hnj : n + (j + 1) = (n + j) + 1 := by omega
    rw [hnj, Function.iterate_succ_apply', ih, h]

/-- One `down` step never fails when every present down action succeeds;
it returns `downStep` of the version, appends the new version exactly when
the version changes, and commits nothing itself. -/
theorem downOnce_ok (ms : List Migration) (st : RunState) (v : Int)
    (hdown : ∀ m ∈ ms, m.down ≠ some false) :
    ∃ st', downOnce ms st v = (st', downStep ms v, none) ∧
      st'.ledger = st.ledger ∧ st'.txOpen = st.txOpen ∧
      st'.events.count Event.committed =
        st.events.count Event.committed ∧
      st'.pending = st.pending ++
        (if downStep ms v = v then [] else [downStep ms v]) := by
  by_cases hv : v = 0
  · refine ⟨st, ?_, rfl, rfl, rfl, ?_⟩
    · simp [downOnce, hv, downStep]
    · simp [downStep, hv]
  cases hpick : downPick ms v with
  | none =>
    have hstep : downStep ms v = v := by rw [downStep, if_neg hv, hpick]
    refine ⟨st, ?_, rfl, rfl, rfl, by simp [hstep]⟩
    simp [downOnce, hv, hpick, hstep]
  | some m =>
    have hstep : downStep ms v = m.version - 1 := by
      rw [downStep, if_neg hv, hpick]
    obtain ⟨hm, hmle⟩ := downPick_some_mem_le ms v m hpick
    have hne : ¬ downStep ms v = v := by rw [hstep]; omega
    cases hdm : m.down with
    | none =>
      refine ⟨({ st with
          pending := st.pending ++ [m.version - 1],
          events := st.events ++ [Event.appended (m.version - 1)] } :
            RunState),
        ?_, rfl, rfl, by simp [List.count_append], ?_⟩
      · simp [downOnce, hv, hpick, hdm, hstep]
      · rw [hstep, if_neg (by omega : ¬ m.version - 1 = v)]
    | some ok =>
      cases ok with
      | false => exact absurd hdm (hdown m hm)
      | true =>
        refine ⟨({ st with
            pending := st.pending ++ [m.version - 1],
            events := st.events ++ [Event.ranDown m.version m.downTx,
              Event.appended (m.version - 1)] } : RunState),
          ?_, rfl, rfl, by simp [List.count_append], ?_⟩
        · simp [downOnce, hv, hpick, hdm, hstep]
        · rw [hstep, if_neg (by omega : ¬ m.version - 1 = v)]

end GoPgMigrations

namespace GoPgMigrations

/-- Committing adds exactly one commit event. -/
theorem count_committed_commitClose (st : RunState) :
    (commitClose st).events.count Event.committed =
      st.events.count Event.committed + 1 := by
  simp [commitClose, List.count_append]

/-- Beginning a transaction adds no commit event. -/
theorem count_committed_beginTx (st : RunState) :
    (beginTx st).events.count Event.committed =
      st.events.count Event.committed := by
  simp [beginTx, List.count_append]

/-- The `reset` loop, with fuel exceeding the number of records at or
below the starting version, reaches the first fixed point of the `down`
step and commits exactly once per iteration. -/
theorem resetLoop_spec (ms : List Migration)
    (hdown : ∀ m ∈ ms, m.down ≠ some false) :
    ∀ (fuel : Nat) (st : RunState) (v : Int),
      ((st.txOpen = true ∧ st.pending = []) ∨
        (st.txOpen = false ∧ currentVersion st.ledger = v)) →
      (ms.filter (fun x => decide (x.version ≤ v))).length < fuel →
      ∃ (st' : RunState) (n : Nat),
        resetLoop ms fuel st v = (st', (downStep ms)^[n] v, none) ∧
        downStep ms ((downStep ms)^[n] v) = (downStep ms)^[n] v ∧
        (∀ k < n, downStep ms ((downStep ms)^[k] v) ≠
          (downStep ms)^[k] v) ∧
        st'.events.count Event.committed =
          st.events.count Event.committed + n + 1 := by
  intro fuel
  induction fuel with
  | zero =>
    intro st v _ hf
    omega
  | succ fuel ih =>
    intro st v hin hf
    obtain ⟨stA, hAeq, hApend, hAledger, hAcount⟩ :
        ∃ stA, (if st.txOpen then (st, v)
            else (beginTx st, currentVersion st.ledger)) = (stA, v) ∧
          stA.pending = [] ∧ stA.ledger = st.ledger ∧
          stA.events.count Event.committed =
            st.events.count Event.committed := by
      rcases hin with ⟨ho, hp⟩ | ⟨hc, hcv⟩
      · exact ⟨st, by simp [ho], hp, rfl, rfl⟩
      · exact ⟨beginTx st, by simp [hc, hcv], by simp [beginTx],
          by simp [beginTx], count_committed_beginTx st⟩
    obtain ⟨st1, hd1, hdledger, hdtx, hdcount, hdpend⟩ :=
      downOnce_ok ms stA v hdown
    have hloop : resetLoop ms (fuel + 1) st v =
        (if downStep ms v = v then (commitClose st1, downStep ms v, none)
         else resetLoop ms fuel (commitClose st1) (downStep ms v)) := by
      simp only [resetLoop, hAeq, hd1]
    by_cases hfix : downStep ms v = v
    · refine ⟨commitClose st1, 0, ?_, by simpa using hfix,
        fun k hk => absurd hk (Nat.not_lt_zero k), ?_⟩
      · rw [hloop, if_pos hfix, hfix]
        simp
      · rw [count_committed_commitClose, hdcount, hAcount]
    · have hf2 : (ms.filter (fun x =>
          decide (x.version ≤ downStep ms v))).length < fuel := by
        have := downStep_lt ms v hfix
        omega
      have hpend1 : st1.pending = [downStep ms v] := by
        rw [hdpend, hApend, if_neg hfix]
        rfl
      have hcv2 : currentVersion (commitClose st1).ledger =
          downStep ms v := by
        rw [show (commitClose st1).ledger = st1.ledger ++ st1.pending from
          rfl, hpend1, currentVersion_append]
      obtain ⟨st', n', hrec, hfx, hmin, hcount⟩ :=
        ih (commitClose st1) (downStep ms v) (Or.inr ⟨rfl, hcv2⟩) hf2
      refine ⟨st', n' + 1, ?_, ?_, ?_, ?_⟩
      · rw [hloop, if_neg hfix, hrec, Function.iterate_succ_apply]
      · rw [Function.iterate_succ_apply]
        exact hfx
      · intro k hk
        cases k with
        | zero => simpa using hfix
        | succ j =>
          rw [Function.iterate_succ_apply]
          exact hmin j (by omega)
      · rw [hcount, count_committed_commitClose, hdcount, hAcount]
        omega

end GoPgMigrations

namespace GoPgMigrations

/-- C6: `reset` repeatedly performs the `down` step, each iteration in its
own transaction with its own commit (`n + 1` commits for `n`
version-changing steps), and terminates exactly when an iteration leaves
the version unchanged; for every finite registry and starting ledger it
terminates without error, and its result is the fixed point reached by
iterating the `down` step — the least one: every fixed point of the
iteration equals it. -/
theorem reset_reaches_fixpoint (ms : List Migration) (L : List Int)
    (hsorted : List.Pairwise (fun a b => a.version < b.version) ms)
    (hdown : ∀ m ∈ ms, m.down ≠ some false) :
    (run ms L ["reset"]).error = none ∧
    (run ms L ["reset"]).oldVersion = currentVersion L ∧
    downStep ms (run ms L ["reset"]).newVersion =
      (run ms L ["reset"]).newVersion ∧
    (∃ n, (run ms L ["reset"]).newVersion =
        (downStep ms)^[n] (currentVersion L) ∧
      (∀ k < n, downStep ms ((downStep ms)^[k] (currentVersion L)) ≠
        (downStep ms)^[k] (currentVersion L)) ∧
      (run ms L ["reset"]).events.count Event.committed = n + 1) ∧
    (∀ k, downStep ms ((downStep ms)^[k] (currentVersion L)) =
        (downStep ms)^[k] (currentVersion L) →
      (downStep ms)^[k] (currentVersion L) =
        (run ms L ["reset"]).newVersion) := by
  have hval := validate_none_of_sorted ms hsorted
  obtain ⟨st', n, hloop, hfx, hmin, hcount⟩ :=
    resetLoop_spec ms hdown (ms.length + 1)
      ⟨L, [Event.beganTx], true, [], currentVersion L, currentVersion L⟩
      (currentVersion L) (Or.inl ⟨rfl, rfl⟩)
      (Nat.lt_succ_of_le (List.length_filter_le _ ms))
  have hrun : run ms L ["reset"] =
      ⟨currentVersion L, (downStep ms)^[n] (currentVersion L), none,
       st'.ledger, st'.events⟩ := by
    simp [run, hval, hloop]
  rw [hrun]
  refine ⟨rfl, rfl, hfx, ⟨n, rfl, hmin, ?_⟩, ?_⟩
  · show st'.events.count Event.committed = n + 1
    rw [hcount]
    simp
  · intro k hk
    rcases Nat.lt_or_ge k n with hlt | hge
    · exact absurd hk (hmin k hlt)
    · obtain ⟨j, rfl⟩ := Nat.exists_eq_add_of_le hge
      show (downStep ms)^[n + j] (currentVersion L) = _
      rw [iterate_fix_stable (downStep ms) (currentVersion L) n hfx j]

/-- Witness for C6: registry `{1, 2}` with succeeding down actions, ledger
`[1, 2]`. -/
theorem reset_reaches_fixpoint_witness :
    List.Pairwise (fun a b => a.version < b.version)
      ([⟨1, false, true, false, some true⟩,
        ⟨2, false, true, false, some true⟩] : List Migration) ∧
    (∀ m ∈ ([⟨1, false, true, false, some true⟩,
        ⟨2, false, true, false, some true⟩] : List Migration),
      m.down ≠ some false) ∧
    (run [⟨1, false, true, false, some true⟩,
      ⟨2, false, true, false, some true⟩] [1, 2] ["reset"]).error = none ∧
    downStep [⟨1, false, true, false, some true⟩,
        ⟨2, false, true, false, some true⟩]
      (run [⟨1, false, true, false, some true⟩,
        ⟨2, false, true, false, some true⟩] [1, 2] ["reset"]).newVersion =
      (run [⟨1, false, true, false, some true⟩,
        ⟨2, false, true, false, some true⟩] [1, 2] ["reset"]).newVersion :=
  ⟨by decide, by decide,
   (reset_reaches_fixpoint [⟨1, false, true, false, some true⟩,
     ⟨2, false, true, false, some true⟩] [1, 2] (by decide) (by decide)).1,
   (reset_reaches_fixpoint [⟨1, false, true, false, some true⟩,
     ⟨2, false, true, false, some true⟩] [1, 2] (by decide)
       (by decide)).2.2.1⟩

/-- Witness for C9: registry `{1}`, empty ledger; the second `up` run is a
no-op at version 1. -/
theorem up_idempotent_witness :
    (run [⟨1, false, true, false, none⟩] [] ["up"]).error = none ∧
    run [⟨1, false, true, false, none⟩]
        (run [⟨1, false, true, false, none⟩] [] ["up"]).ledger ["up"] =
      ⟨(run [⟨1, false, true, false, none⟩] [] ["up"]).newVersion,
       (run [⟨1, false, true, false, none⟩] [] ["up"]).newVersion, none,
       (run [⟨1, false, true, false, none⟩] [] ["up"]).ledger,
       [Event.beganTx, Event.committed]⟩ :=
  ⟨by decide,
   up_idempotent [⟨1, false, true, false, none⟩] [] (by decide) (by decide)
     (by decide)⟩

end GoPgMigrations
